import Mathlib

/-!
Verification of the `rstring` Levenshtein library (`src/levenshtein.rs`).

The Rust functions are shallowly embedded over `List Char` (the Rust code
decodes each `&str` argument to a `Vec<char>` of Unicode scalar values
before any indexing, so every function is a function of the two decoded
code-point sequences).  `usize` arithmetic is modelled by `Nat`; the only
place a machine-width constant is observable is the initialiser
`usize::MAX` of `min_dist` in `partial_distance`, kept here as
`USIZE_MAX = 2^64 - 1`.  The `f64` results of the normalized metrics are
modelled by exact rationals `ℚ` (the code only casts integers and divides
once); floating-point rounding is outside the scope of this development.

Naming: the Rust names `partial_distance`, `partial_similarity`,
`normalized_partial_distance` and `normalized_partial_similarity` are
rendered `pdistance`, `psimilarity`, `normalized_pdistance` and
`normalized_psimilarity`.
-/

namespace RString

/-- Inner loop of `distance` in `src/levenshtein.rs`: for a fixed character
`ac` of `a`, walks `b` and the previous DP row in lockstep, carrying the
last written `curr` value `c`, and returns the list of values written to
`curr[1..=m]`.  At step `j` the head `p0` is `prev[j]`, `p1` is
`prev[j+1]`, and the new cell is
`min (prev[j+1]+1) (min (curr[j]+1) (prev[j]+cost))`, exactly the Rust
`deletion.min(insertion).min(substitution)`. -/
def innerLoop (ac : Char) : List Char → List Nat → Nat → List Nat
  | b :: bs, p0 :: p1 :: ps, c =>
      (min (p1 + 1) (min (c + 1) (p0 + (if ac = b then 0 else 1)))) ::
        innerLoop ac bs (p1 :: ps)
          (min (p1 + 1) (min (c + 1) (p0 + (if ac = b then 0 else 1))))
  | _, _, _ => []

/-- Outer loop of `distance`: iterates over the characters of `a` with
their indices, replacing the previous row by the freshly computed row
(`curr[0] = i + 1` followed by the inner-loop cells); the final `prev`
row is returned.  The `std::mem::swap` of the Rust code is modelled by
passing the new row as the next `prev`. -/
def outerLoop (b : List Char) : List Char → List Nat → Nat → List Nat
  | [], prev, _ => prev
  | ac :: rest, prev, i =>
      outerLoop b rest ((i + 1) :: innerLoop ac b prev (i + 1)) (i + 1)

/-- Embedding of `distance` from `src/levenshtein.rs`: two-row dynamic
programming over the decoded code-point sequences; `prev` starts as
`(0..=m).collect()` and the answer is `prev[m]`. -/
def distance (a b : List Char) : Nat :=
  if a.length = 0 then b.length
  else if b.length = 0 then a.length
  else (outerLoop b a (List.range (b.length + 1)) 0).getD b.length 0

/-- Embedding of `normalized_distance`: `distance / max` with the
`max == 0` guard, over exact rationals in place of `f64`. -/
def normalized_distance (a b : List Char) : ℚ :=
  if ((max a.length b.length : Nat) : ℚ) = 0 then 0
  else (distance a b : ℚ) / ((max a.length b.length : Nat) : ℚ)

/-- Embedding of `similarity`: `max_length.saturating_sub(distance)`;
`Nat` subtraction is saturating subtraction. -/
def similarity (a b : List Char) : Nat :=
  max a.length b.length - distance a b

/-- Embedding of `normalized_similarity`: `1.0 - distance / max` with the
`max == 0 → 1.0` guard. -/
def normalized_similarity (a b : List Char) : ℚ :=
  if ((max a.length b.length : Nat) : ℚ) = 0 then 1
  else 1 - (distance a b : ℚ) / ((max a.length b.length : Nat) : ℚ)

/-- Initial value of `min_dist` in the Rust `partial_distance`
(`usize::MAX` on a 64-bit target). -/
def USIZE_MAX : Nat := 2 ^ 64 - 1

/-- Slide loop of the Rust `partial_distance`: for each start offset `s`
in the remaining list, compares `short` against the window
`long[s .. s+n]`; updates `min_dist` on strict improvement and breaks as
soon as `min_dist` reaches `0`. -/
def slideLoop (short long : List Char) (n : Nat) : List Nat → Nat → Nat
  | [], md => md
  | s :: rest, md =>
      if distance short ((long.drop s).take n) < md then
        (if distance short ((long.drop s).take n) = 0 then
          distance short ((long.drop s).take n)
        else slideLoop short long n rest (distance short ((long.drop s).take n)))
      else slideLoop short long n rest md

/-- Embedding of `partial_distance`: picks the shorter sequence (ties go
to the first argument), returns `0` for an empty short side, the full
distance for equal lengths, and otherwise the slide loop over start
offsets `0 ..= m - n` starting from `usize::MAX`. -/
def pdistance (a b : List Char) : Nat :=
  if a.length ≤ b.length then
    (if a.length = 0 then 0
     else if a.length = b.length then distance a b
     else slideLoop a b a.length (List.range (b.length - a.length + 1)) USIZE_MAX)
  else
    (if b.length = 0 then 0
     else if b.length = a.length then distance b a
     else slideLoop b a b.length (List.range (a.length - b.length + 1)) USIZE_MAX)

/-- Embedding of `normalized_partial_distance`: `partial_distance / min`
with the `min == 0` guard. -/
def normalized_pdistance (a b : List Char) : ℚ :=
  if ((min a.length b.length : Nat) : ℚ) = 0 then 0
  else (pdistance a b : ℚ) / ((min a.length b.length : Nat) : ℚ)

/-- Embedding of `partial_similarity`:
`min_length.saturating_sub(partial_distance)`. -/
def psimilarity (a b : List Char) : Nat :=
  min a.length b.length - pdistance a b

/-- Embedding of `normalized_partial_similarity`:
`1.0 - partial_distance / min` with the `min == 0 → 1.0` guard. -/
def normalized_psimilarity (a b : List Char) : ℚ :=
  if ((min a.length b.length : Nat) : ℚ) = 0 then 1
  else 1 - (pdistance a b : ℚ) / ((min a.length b.length : Nat) : ℚ)

/-- Reference Levenshtein distance, by the textbook recursion on heads. -/
def lev : List Char → List Char → Nat
  | [], ys => ys.length
  | x :: xs, [] => (x :: xs).length
  | x :: xs, y :: ys =>
      min (lev xs (y :: ys) + 1)
        (min (lev (x :: xs) ys + 1) (lev xs ys + (if x = y then 0 else 1)))

/-- Cost-`k` edit scripts, presented as alignments: `Aligns xs ys k` holds
when `xs` can be transformed into `ys` by a left-to-right script of
single-code-point operations of total cost `k` (matches are free;
substitutions, deletions and insertions each cost one). -/
inductive Aligns : List Char → List Char → Nat → Prop
  | nil : Aligns [] [] 0
  | keep (c : Char) {xs ys : List Char} {k : Nat} :
      Aligns xs ys k → Aligns (c :: xs) (c :: ys) k
  | subst (c d : Char) {xs ys : List Char} {k : Nat} :
      Aligns xs ys k → Aligns (c :: xs) (d :: ys) (k + 1)
  | del (c : Char) {xs ys : List Char} {k : Nat} :
      Aligns xs ys k → Aligns (c :: xs) ys (k + 1)
  | ins (d : Char) {xs ys : List Char} {k : Nat} :
      Aligns xs ys k → Aligns xs (d :: ys) (k + 1)

/-- Tail of the DP row for `xs` against the prefixes of `done ++ bs` that
extend `done`: the value at position `j` is `lev xs (done ++ bs.take (j+1))`. -/
def levRowTail (xs : List Char) : List Char → List Char → List Nat
  | _, [] => []
  | done, b :: bs => lev xs (done ++ [b]) :: levRowTail xs (done ++ [b]) bs

/-- Fuel-indexed variant of `innerLoop`: spends one unit of fuel per inner
iteration and reports `none` if the fuel runs out with characters of `b`
still unprocessed. -/
def innerLoopF (ac : Char) : Nat → List Char → List Nat → Nat → Option (List Nat)
  | _, [], _, _ => some []
  | 0, _ :: _, _, _ => none
  | fuel + 1, b :: bs, p0 :: p1 :: ps, c =>
      (innerLoopF ac fuel bs (p1 :: ps)
          (min (p1 + 1) (min (c + 1) (p0 + (if ac = b then 0 else 1))))).map
        (fun t =>
          (min (p1 + 1) (min (c + 1) (p0 + (if ac = b then 0 else 1)))) :: t)
  | _ + 1, _ :: _, _, _ => some []

/-- Fuel-indexed variant of `outerLoop`: one unit of fuel per character of
`a`, with the inner loop run on fuel `b.length`. -/
def outerLoopF (b : List Char) : Nat → List Char → List Nat → Nat → Option (List Nat)
  | _, [], prev, _ => some prev
  | 0, _ :: _, _, _ => none
  | fuel + 1, ac :: rest, prev, i =>
      (innerLoopF ac b.length b prev (i + 1)).bind
        (fun row => outerLoopF b fuel rest ((i + 1) :: row) (i + 1))

/-- Fuel-indexed `distance`: the outer loop is given exactly `a.length`
units of fuel and the inner loop exactly `b.length`. -/
def distanceF (a b : List Char) : Option Nat :=
  if a.length = 0 then some b.length
  else if b.length = 0 then some a.length
  else (outerLoopF b a.length a (List.range (b.length + 1)) 0).map
    (fun prev => prev.getD b.length 0)

/-- Fuel-indexed variant of the slide loop of `partial_distance`: one unit
of fuel per start offset. -/
def slideLoopF (short long : List Char) (n : Nat) :
    Nat → List Nat → Nat → Option Nat
  | _, [], md => some md
  | 0, _ :: _, _ => none
  | fuel + 1, s :: rest, md =>
      if distance short ((long.drop s).take n) < md then
        (if distance short ((long.drop s).take n) = 0 then
          some (distance short ((long.drop s).take n))
        else slideLoopF short long n fuel rest
          (distance short ((long.drop s).take n)))
      else slideLoopF short long n fuel rest md

/-- Fuel-indexed `partial_distance`: the slide loop is given exactly
`m - n + 1` units of fuel, the number of start offsets. -/
def pdistanceF (a b : List Char) : Option Nat :=
  if a.length ≤ b.length then
    (if a.length = 0 then some 0
     else if a.length = b.length then distanceF a b
     else slideLoopF a b a.length (b.length - a.length + 1)
       (List.range (b.length - a.length + 1)) USIZE_MAX)
  else
    (if b.length = 0 then some 0
     else if b.length = a.length then distanceF b a
     else slideLoopF b a b.length (a.length - b.length + 1)
       (List.range (a.length - b.length + 1)) USIZE_MAX)

/-- Fuel-indexed `normalized_distance`, layered on `distanceF`. -/
def normalized_distanceF (a b : List Char) : Option ℚ :=
  (distanceF a b).map (fun d =>
    if ((max a.length b.length : Nat) : ℚ) = 0 then 0
    else (d : ℚ) / ((max a.length b.length : Nat) : ℚ))

/-- Fuel-indexed `similarity`, layered on `distanceF`. -/
def similarityF (a b : List Char) : Option Nat :=
  (distanceF a b).map (fun d => max a.length b.length - d)

/-- Fuel-indexed `normalized_similarity`, layered on `distanceF`. -/
def normalized_similarityF (a b : List Char) : Option ℚ :=
  (distanceF a b).map (fun d =>
    if ((max a.length b.length : Nat) : ℚ) = 0 then 1
    else 1 - (d : ℚ) / ((max a.length b.length : Nat) : ℚ))

/-- Fuel-indexed `normalized_partial_distance`, layered on `pdistanceF`. -/
def normalized_pdistanceF (a b : List Char) : Option ℚ :=
  (pdistanceF a b).map (fun d =>
    if ((min a.length b.length : Nat) : ℚ) = 0 then 0
    else (d : ℚ) / ((min a.length b.length : Nat) : ℚ))

/-- Fuel-indexed `partial_similarity`, layered on `pdistanceF`. -/
def psimilarityF (a b : List Char) : Option Nat :=
  (pdistanceF a b).map (fun d => min a.length b.length - d)

/-- Fuel-indexed `normalized_partial_similarity`, layered on `pdistanceF`. -/
def normalized_psimilarityF (a b : List Char) : Option ℚ :=
  (pdistanceF a b).map (fun d =>
    if ((min a.length b.length : Nat) : ℚ) = 0 then 1
    else 1 - (d : ℚ) / ((min a.length b.length : Nat) : ℚ))

/-- Formula for `normalized_distance` as the §4.3 table states it:
`distance(a,b) / max(len(a),len(b))`, with `0.0` when both inputs are
empty. -/
def spec_normalized_distance (a b : List Char) : ℚ :=
  if a = [] ∧ b = [] then 0
  else (distance a b : ℚ) / ((max a.length b.length : Nat) : ℚ)

/-- Formula for `similarity` as the §4.3 table states it:
`max(len(a),len(b)) - distance(a,b)`, floored at `0`. -/
def spec_similarity (a b : List Char) : ℤ :=
  max 0 (((max a.length b.length : Nat) : ℤ) - (distance a b : ℤ))

/-- Formula for `normalized_similarity` as the §4.3 table states it:
`1.0 - normalized_distance(a,b)`, with `1.0` when both inputs are
empty. -/
def spec_normalized_similarity (a b : List Char) : ℚ :=
  if a = [] ∧ b = [] then 1 else 1 - normalized_distance a b

/-- Formula for `normalized_partial_distance` as the §4.3 table states
it: `partial_distance(a,b) / min(len(a),len(b))`, with `0.0` when either
input is empty. -/
def spec_normalized_pdistance (a b : List Char) : ℚ :=
  if a = [] ∨ b = [] then 0
  else (pdistance a b : ℚ) / ((min a.length b.length : Nat) : ℚ)

/-- Formula for `partial_similarity` as the §4.3 table states it:
`min(len(a),len(b)) - partial_distance(a,b)`, floored at `0`. -/
def spec_psimilarity (a b : List Char) : ℤ :=
  max 0 (((min a.length b.length : Nat) : ℤ) - (pdistance a b : ℤ))

/-- Formula for `normalized_partial_similarity` as the §4.3 table states
it: `1.0 - normalized_partial_distance(a,b)`, with `1.0` when either
input is empty. -/
def spec_normalized_psimilarity (a b : List Char) : ℚ :=
  if a = [] ∨ b = [] then 1 else 1 - normalized_pdistance a b

theorem lev_nil_left (ys : List Char) : lev [] ys = ys.length := by
  cases ys <;> simp [lev]

theorem lev_nil_right (xs : List Char) : lev xs [] = xs.length := by
  cases xs <;> simp [lev]

theorem lev_cons_cons (x y : Char) (xs ys : List Char) :
    lev (x :: xs) (y :: ys) =
      min (lev xs (y :: ys) + 1)
        (min (lev (x :: xs) ys + 1) (lev xs ys + (if x = y then 0 else 1))) := by
  simp [lev]

theorem lev_le_del (c : Char) (xs ys : List Char) :
    lev (c :: xs) ys ≤ lev xs ys + 1 := by
  cases ys with
  | nil => simp [lev_nil_right]
  | cons y ys => rw [lev_cons_cons]; exact min_le_left _ _

theorem lev_le_ins (d : Char) (xs ys : List Char) :
    lev xs (d :: ys) ≤ lev xs ys + 1 := by
  cases xs with
  | nil => simp [lev_nil_left]
  | cons x xs =>
      rw [lev_cons_cons]
      exact le_trans (min_le_right _ _) (min_le_left _ _)

theorem lev_le_subst (c d : Char) (xs ys : List Char) :
    lev (c :: xs) (d :: ys) ≤ lev xs ys + 1 := by
  rw [lev_cons_cons]
  refine le_trans (le_trans (min_le_right _ _) (min_le_right _ _)) ?_
  by_cases h : c = d <;> simp [h]

theorem lev_le_keep (c : Char) (xs ys : List Char) :
    lev (c :: xs) (c :: ys) ≤ lev xs ys := by
  rw [lev_cons_cons]
  refine le_trans (le_trans (min_le_right _ _) (min_le_right _ _)) ?_
  simp

theorem aligns_nil_left (ys : List Char) : Aligns [] ys ys.length := by
  induction ys with
  | nil => exact Aligns.nil
  | cons y ys ih => exact Aligns.ins y ih

theorem aligns_nil_right (xs : List Char) : Aligns xs [] xs.length := by
  induction xs with
  | nil => exact Aligns.nil
  | cons x xs ih => exact Aligns.del x ih

theorem aligns_lev : ∀ xs ys : List Char, Aligns xs ys (lev xs ys) := by
  intro xs
  induction xs with
  | nil => intro ys; rw [lev_nil_left]; exact aligns_nil_left ys
  | cons x xs ihx =>
      intro ys
      induction ys with
      | nil => rw [lev_nil_right]; exact aligns_nil_right _
      | cons y ys ihy =>
          rw [lev_cons_cons]
          have hmin :
              min (lev xs (y :: ys) + 1)
                  (min (lev (x :: xs) ys + 1)
                    (lev xs ys + (if x = y then 0 else 1)))
                = lev xs (y :: ys) + 1 ∨
              min (lev xs (y :: ys) + 1)
                  (min (lev (x :: xs) ys + 1)
                    (lev xs ys + (if x = y then 0 else 1)))
                = lev (x :: xs) ys + 1 ∨
              min (lev xs (y :: ys) + 1)
                  (min (lev (x :: xs) ys + 1)
                    (lev xs ys + (if x = y then 0 else 1)))
                = lev xs ys + (if x = y then 0 else 1) := by omega
          rcases hmin with h | h | h <;> rw [h]
          · exact Aligns.del x (ihx (y :: ys))
          · exact Aligns.ins y ihy
          · by_cases hxy : x = y
            · subst hxy; simpa using Aligns.keep x (ihx ys)
            · simpa [hxy] using Aligns.subst x y (ihx ys)

theorem lev_le_of_aligns {xs ys : List Char} {k : Nat}
    (h : Aligns xs ys k) : lev xs ys ≤ k := by
  induction h with
  | nil => simp [lev]
  | keep c _ ih => exact le_trans (lev_le_keep _ _ _) ih
  | subst c d _ ih =>
      exact le_trans (lev_le_subst _ _ _ _) (Nat.add_le_add_right ih 1)
  | del c _ ih =>
      exact le_trans (lev_le_del _ _ _) (Nat.add_le_add_right ih 1)
  | ins d _ ih =>
      exact le_trans (lev_le_ins _ _ _) (Nat.add_le_add_right ih 1)

theorem aligns_snoc_keep (c : Char) {xs ys : List Char} {k : Nat}
    (h : Aligns xs ys k) : Aligns (xs ++ [c]) (ys ++ [c]) k := by
  induction h with
  | nil => exact Aligns.keep c Aligns.nil
  | keep c' _ ih => exact Aligns.keep c' ih
  | subst c' d' _ ih => exact Aligns.subst c' d' ih
  | del c' _ ih => exact Aligns.del c' ih
  | ins d' _ ih => exact Aligns.ins d' ih

theorem aligns_snoc_subst (c d : Char) {xs ys : List Char} {k : Nat}
    (h : Aligns xs ys k) : Aligns (xs ++ [c]) (ys ++ [d]) (k + 1) := by
  induction h with
  | nil => exact Aligns.subst c d Aligns.nil
  | keep c' _ ih => exact Aligns.keep c' ih
  | subst c' d' _ ih => exact Aligns.subst c' d' ih
  | del c' _ ih => exact Aligns.del c' ih
  | ins d' _ ih => exact Aligns.ins d' ih

theorem aligns_snoc_del (c : Char) {xs ys : List Char} {k : Nat}
    (h : Aligns xs ys k) : Aligns (xs ++ [c]) ys (k + 1) := by
  induction h with
  | nil => exact Aligns.del c Aligns.nil
  | keep c' _ ih => exact Aligns.keep c' ih
  | subst c' d' _ ih => exact Aligns.subst c' d' ih
  | del c' _ ih => exact Aligns.del c' ih
  | ins d' _ ih => exact Aligns.ins d' ih

theorem aligns_snoc_ins (d : Char) {xs ys : List Char} {k : Nat}
    (h : Aligns xs ys k) : Aligns xs (ys ++ [d]) (k + 1) := by
  induction h with
  | nil => exact Aligns.ins d Aligns.nil
  | keep c' _ ih => exact Aligns.keep c' ih
  | subst c' d' _ ih => exact Aligns.subst c' d' ih
  | del c' _ ih => exact Aligns.del c' ih
  | ins d' _ ih => exact Aligns.ins d' ih

theorem aligns_reverse {xs ys : List Char} {k : Nat}
    (h : Aligns xs ys k) : Aligns xs.reverse ys.reverse k := by
  induction h with
  | nil => exact Aligns.nil
  | keep c _ ih => simpa [List.reverse_cons] using aligns_snoc_keep c ih
  | subst c d _ ih => simpa [List.reverse_cons] using aligns_snoc_subst c d ih
  | del c _ ih => simpa [List.reverse_cons] using aligns_snoc_del c ih
  | ins d _ ih => simpa [List.reverse_cons] using aligns_snoc_ins d ih

theorem aligns_symm {xs ys : List Char} {k : Nat}
    (h : Aligns xs ys k) : Aligns ys xs k := by
  induction h with
  | nil => exact Aligns.nil
  | keep c _ ih => exact Aligns.keep c ih
  | subst c d _ ih => exact Aligns.subst d c ih
  | del c _ ih => exact Aligns.ins c ih
  | ins d _ ih => exact Aligns.del d ih

theorem lev_reverse (xs ys : List Char) :
    lev xs.reverse ys.reverse = lev xs ys := by
  refine le_antisymm (lev_le_of_aligns (aligns_reverse (aligns_lev xs ys))) ?_
  have h := lev_le_of_aligns (aligns_reverse (aligns_lev xs.reverse ys.reverse))
  simpa using h

theorem lev_symm (xs ys : List Char) : lev xs ys = lev ys xs :=
  le_antisymm (lev_le_of_aligns (aligns_symm (aligns_lev ys xs)))
    (lev_le_of_aligns (aligns_symm (aligns_lev xs ys)))

theorem lev_snoc_snoc (x y : Char) (xs ys : List Char) :
    lev (xs ++ [x]) (ys ++ [y]) =
      min (lev xs (ys ++ [y]) + 1)
        (min (lev (xs ++ [x]) ys + 1)
          (lev xs ys + (if x = y then 0 else 1))) := by
  have h1 : lev (xs ++ [x]) (ys ++ [y])
      = lev (x :: xs.reverse) (y :: ys.reverse) := by
    rw [← lev_reverse (xs ++ [x]) (ys ++ [y])]
    simp [List.reverse_append]
  have h2 : lev xs.reverse (y :: ys.reverse) = lev xs (ys ++ [y]) := by
    rw [← lev_reverse xs (ys ++ [y])]
    simp [List.reverse_append]
  have h3 : lev (x :: xs.reverse) ys.reverse = lev (xs ++ [x]) ys := by
    rw [← lev_reverse (xs ++ [x]) ys]
    simp [List.reverse_append]
  have h4 : lev xs.reverse ys.reverse = lev xs ys := lev_reverse xs ys
  rw [h1, lev_cons_cons, h2, h3, h4]

theorem lev_le_max (xs ys : List Char) :
    lev xs ys ≤ max xs.length ys.length := by
  induction xs generalizing ys with
  | nil => simp [lev_nil_left]
  | cons x xs ihx =>
      cases ys with
      | nil => simp [lev_nil_right]
      | cons y ys =>
          have h3 := ihx ys
          rw [lev_cons_cons]
          by_cases hxy : x = y
          · rw [if_pos hxy]; simp only [List.length_cons]; omega
          · rw [if_neg hxy]; simp only [List.length_cons]; omega

theorem lev_ge_sub : ∀ xs ys : List Char, xs.length - ys.length ≤ lev xs ys := by
  intro xs
  induction xs with
  | nil => intro ys; simp
  | cons x xs ihx =>
      intro ys
      induction ys with
      | nil => simp [lev_nil_right]
      | cons y ys ihy =>
          have h1 := ihx (y :: ys)
          have h2 := ihy
          have h3 := ihx ys
          rw [lev_cons_cons]
          by_cases hxy : x = y
          · rw [if_pos hxy]
            simp only [List.length_cons] at h1 h2 h3 ⊢
            omega
          · rw [if_neg hxy]
            simp only [List.length_cons] at h1 h2 h3 ⊢
            omega

theorem innerLoop_spec (ac : Char) (xs : List Char) :
    ∀ (bs done : List Char),
      innerLoop ac bs (lev xs done :: levRowTail xs done bs)
        (lev (xs ++ [ac]) done)
      = levRowTail (xs ++ [ac]) done bs := by
  intro bs
  induction bs with
  | nil => intro done; simp [innerLoop, levRowTail]
  | cons b bs ih =>
      intro done
      rw [levRowTail, levRowTail, innerLoop]
      have hv :
          min (lev xs (done ++ [b]) + 1)
            (min (lev (xs ++ [ac]) done + 1)
              (lev xs done + (if ac = b then 0 else 1)))
          = lev (xs ++ [ac]) (done ++ [b]) :=
        (lev_snoc_snoc ac b xs done).symm
      rw [hv]
      exact congrArg _ (ih (done ++ [b]))

theorem outerLoop_spec (b : List Char) :
    ∀ (rest xs : List Char),
      outerLoop b rest (lev xs [] :: levRowTail xs [] b) xs.length
      = lev (xs ++ rest) [] :: levRowTail (xs ++ rest) [] b := by
  intro rest
  induction rest with
  | nil => intro xs; simp [outerLoop]
  | cons ac rest ih =>
      intro xs
      rw [outerLoop]
      have hlen : xs.length + 1 = (xs ++ [ac]).length := by simp
      have hc : xs.length + 1 = lev (xs ++ [ac]) [] := by
        rw [lev_nil_right]; simp
      have hinner :
          innerLoop ac b (lev xs [] :: levRowTail xs [] b) (xs.length + 1)
          = levRowTail (xs ++ [ac]) [] b := by
        rw [hc]; exact innerLoop_spec ac xs b []
      rw [hinner]
      have := ih (xs ++ [ac])
      rw [← hc] at this
      calc outerLoop b rest ((xs.length + 1) :: levRowTail (xs ++ [ac]) [] b)
            (xs.length + 1)
          = lev ((xs ++ [ac]) ++ rest) [] ::
              levRowTail ((xs ++ [ac]) ++ rest) [] b := by
            rw [← hlen] at this; exact this
        _ = lev (xs ++ ac :: rest) [] :: levRowTail (xs ++ ac :: rest) [] b := by
            simp

theorem levRowTail_nil_left :
    ∀ (bs done : List Char),
      levRowTail [] done bs = List.range' (done.length + 1) bs.length := by
  intro bs
  induction bs with
  | nil => intro done; simp [levRowTail]
  | cons b bs ih =>
      intro done
      have hih := ih (done ++ [b])
      simp only [List.length_append, List.length_cons, List.length_nil] at hih
      rw [levRowTail, lev_nil_left, List.length_cons, List.range'_succ, hih]
      simp

theorem levRow_getD (xs : List Char) :
    ∀ (bs done : List Char),
      (lev xs done :: levRowTail xs done bs).getD bs.length 0
      = lev xs (done ++ bs) := by
  intro bs
  induction bs with
  | nil => intro done; simp [levRowTail]
  | cons b bs ih =>
      intro done
      rw [levRowTail, List.length_cons, List.getD_cons_succ]
      have := ih (done ++ [b])
      rw [this]
      simp

theorem distance_eq_lev (a b : List Char) : distance a b = lev a b := by
  unfold distance
  by_cases ha : a.length = 0
  · rw [if_pos ha]
    rw [List.length_eq_zero] at ha
    subst ha
    rw [lev_nil_left]
  · rw [if_neg ha]
    by_cases hb : b.length = 0
    · rw [if_pos hb]
      rw [List.length_eq_zero] at hb
      subst hb
      rw [lev_nil_right]
    · rw [if_neg hb]
      have hinit : List.range (b.length + 1)
          = lev ([] : List Char) [] :: levRowTail [] [] b := by
        rw [levRowTail_nil_left b [], lev_nil_left]
        rw [List.range_eq_range']
        simp [List.range'_succ]
      rw [hinit]
      have houter := outerLoop_spec b a []
      simp only [List.length_nil, List.nil_append] at houter
      rw [houter]
      have := levRow_getD a b []
      simpa using this

theorem dist_symm (a b : List Char) : distance a b = distance b a := by
  rw [distance_eq_lev, distance_eq_lev, lev_symm]

theorem dist_le_max (a b : List Char) :
    distance a b ≤ max a.length b.length := by
  rw [distance_eq_lev]; exact lev_le_max a b

theorem foldr_min_le_init : ∀ (l : List Nat) (md : Nat), l.foldr min md ≤ md := by
  intro l
  induction l with
  | nil => intro md; exact le_refl md
  | cons c l ih =>
      intro md
      exact le_trans (min_le_right _ _) (ih md)

theorem foldr_min_le_mem :
    ∀ (l : List Nat) (md x : Nat), x ∈ l → l.foldr min md ≤ x := by
  intro l
  induction l with
  | nil => intro md x hx; cases hx
  | cons c l ih =>
      intro md x hx
      rcases List.mem_cons.1 hx with h | h
      · subst h; exact min_le_left _ _
      · exact le_trans (min_le_right _ _) (ih md x h)

theorem foldr_min_init_mono :
    ∀ (l : List Nat) (x y : Nat), x ≤ y →
      l.foldr min x = min x (l.foldr min y) := by
  intro l
  induction l with
  | nil => intro x y h; simp; omega
  | cons c l ih =>
      intro x y h
      simp only [List.foldr_cons]
      rw [ih x y h]
      omega

theorem foldr_min_mem_or :
    ∀ (l : List Nat) (md : Nat), l.foldr min md = md ∨ l.foldr min md ∈ l := by
  intro l
  induction l with
  | nil => intro md; left; rfl
  | cons c l ih =>
      intro md
      simp only [List.foldr_cons]
      have hcases : min c (l.foldr min md) = c ∨
          min c (l.foldr min md) = l.foldr min md := by omega
      rcases hcases with h | h
      · right; rw [h]; exact List.mem_cons_self c l
      · rcases ih md with h' | h'
        · left; rw [h, h']
        · right; rw [h]; exact List.mem_cons_of_mem c h'

theorem slideLoop_eq_foldr (short long : List Char) (n : Nat) :
    ∀ (starts : List Nat) (md : Nat),
      slideLoop short long n starts md =
        (starts.map (fun s => distance short ((long.drop s).take n))).foldr
          min md := by
  intro starts
  induction starts with
  | nil => intro md; rfl
  | cons s rest ih =>
      intro md
      rw [slideLoop]
      simp only [List.map_cons, List.foldr_cons]
      by_cases h1 : distance short ((long.drop s).take n) < md
      · rw [if_pos h1]
        by_cases h2 : distance short ((long.drop s).take n) = 0
        · rw [if_pos h2, h2]
          have := foldr_min_le_init (rest.map
            (fun s => distance short ((long.drop s).take n))) md
          omega
        · rw [if_neg h2, ih]
          rw [foldr_min_init_mono _ _ md (le_of_lt h1)]
      · rw [if_neg h1, ih]
        have := foldr_min_le_init (rest.map
          (fun s => distance short ((long.drop s).take n))) md
        omega

theorem pdistance_comm (a b : List Char) : pdistance a b = pdistance b a := by
  unfold pdistance
  rcases Nat.lt_trichotomy a.length b.length with h | h | h
  · rw [if_pos (le_of_lt h), if_neg (not_le.mpr h)]
  · rw [if_pos (le_of_eq h), if_pos (le_of_eq h.symm), h]
    by_cases hb : b.length = 0 <;> simp [hb, dist_symm a b]
  · rw [if_neg (not_le.mpr h), if_pos (le_of_lt h)]

theorem pdistance_oriented (short long : List Char)
    (h : short.length ≤ long.length) :
    pdistance short long =
      if short.length = 0 then 0
      else if short.length = long.length then distance short long
      else ((List.range (long.length - short.length + 1)).map
          (fun s => distance short ((long.drop s).take short.length))).foldr
        min USIZE_MAX := by
  unfold pdistance
  rw [if_pos h]
  by_cases h0 : short.length = 0
  · simp [h0]
  · rw [if_neg h0, if_neg h0]
    by_cases he : short.length = long.length
    · simp [he]
    · rw [if_neg he, if_neg he, slideLoop_eq_foldr]

theorem window_length {short long : List Char} (s : Nat)
    (h : short.length ≤ long.length) (hs : s ≤ long.length - short.length) :
    ((long.drop s).take short.length).length = short.length := by
  simp only [List.length_take, List.length_drop]
  omega

theorem dist_window_le {short long : List Char} (s : Nat)
    (h : short.length ≤ long.length) (hs : s ≤ long.length - short.length) :
    distance short ((long.drop s).take short.length) ≤ short.length := by
  have := dist_le_max short ((long.drop s).take short.length)
  rw [window_length s h hs] at this
  simpa using this

theorem pdist_le_min (a b : List Char) :
    pdistance a b ≤ min a.length b.length := by
  rcases le_total a.length b.length with h | h
  · rw [min_eq_left h, pdistance_oriented a b h]
    by_cases h0 : a.length = 0
    · simp [h0]
    · rw [if_neg h0]
      by_cases he : a.length = b.length
      · rw [if_pos he]
        have := dist_le_max a b
        omega
      · rw [if_neg he]
        have hmem : distance a ((b.drop 0).take a.length) ∈
            (List.range (b.length - a.length + 1)).map
              (fun s => distance a ((b.drop s).take a.length)) :=
          List.mem_map.2 ⟨0, List.mem_range.2 (by omega), rfl⟩
        have hle := foldr_min_le_mem _ USIZE_MAX _ hmem
        have hw := @dist_window_le a b 0 h (by omega)
        omega
  · rw [min_eq_right h, pdistance_comm a b, pdistance_oriented b a h]
    by_cases h0 : b.length = 0
    · simp [h0]
    · rw [if_neg h0]
      by_cases he : b.length = a.length
      · rw [if_pos he]
        have := dist_le_max b a
        omega
      · rw [if_neg he]
        have hmem : distance b ((a.drop 0).take b.length) ∈
            (List.range (a.length - b.length + 1)).map
              (fun s => distance b ((a.drop s).take b.length)) :=
          List.mem_map.2 ⟨0, List.mem_range.2 (by omega), rfl⟩
        have hle := foldr_min_le_mem _ USIZE_MAX _ hmem
        have hw := @dist_window_le b a 0 h (by omega)
        omega

theorem lev_le_cons_right (z : Char) :
    ∀ (u v : List Char), lev u v ≤ lev u (z :: v) + 1 := by
  intro u
  induction u with
  | nil => intro v; simp [lev_nil_left]; omega
  | cons a u ih =>
      intro v
      have h1 := lev_le_del a u v
      have h2 := ih v
      rw [lev_cons_cons]
      by_cases haz : a = z
      · rw [if_pos haz]; omega
      · rw [if_neg haz]; omega

theorem lev_le_snoc_right (z : Char) (xs ys : List Char) :
    lev xs ys ≤ lev xs (ys ++ [z]) + 1 := by
  rw [← lev_reverse xs ys, ← lev_reverse xs (ys ++ [z])]
  simp only [List.reverse_append, List.reverse_cons, List.reverse_nil,
    List.nil_append, List.singleton_append]
  exact lev_le_cons_right z _ _

theorem lev_le_append_right :
    ∀ (zs xs ys : List Char), lev xs ys ≤ lev xs (ys ++ zs) + zs.length := by
  intro zs
  induction zs with
  | nil => intro xs ys; simp
  | cons z zs ih =>
      intro xs ys
      have h1 := lev_le_snoc_right z xs ys
      have h2 := ih xs (ys ++ [z])
      rw [List.append_assoc] at h2
      simp only [List.singleton_append] at h2
      simp only [List.length_cons]
      omega

theorem pdist_le_dist_add (short long : List Char)
    (h : short.length < long.length) :
    pdistance short long ≤ distance short long
      + (long.length - short.length) := by
  rw [pdistance_oriented short long (le_of_lt h)]
  by_cases h0 : short.length = 0
  · rw [if_pos h0]; exact Nat.zero_le _
  · rw [if_neg h0, if_neg (by omega : ¬ short.length = long.length)]
    have hmem : distance short ((long.drop 0).take short.length) ∈
        (List.range (long.length - short.length + 1)).map
          (fun s => distance short ((long.drop s).take short.length)) :=
      List.mem_map.2 ⟨0, List.mem_range.2 (by omega), rfl⟩
    have hle := foldr_min_le_mem _ USIZE_MAX _ hmem
    have h2 : distance short ((long.drop 0).take short.length)
        = lev short (long.take short.length) := by
      rw [List.drop_zero, distance_eq_lev]
    have h3 := lev_le_append_right (long.drop short.length) short
      (long.take short.length)
    rw [List.take_append_drop] at h3
    have h4 : (long.drop short.length).length
        = long.length - short.length := List.length_drop _ _
    rw [distance_eq_lev short long]
    omega

theorem innerLoopF_eq (ac : Char) :
    ∀ (bs : List Char) (prev : List Nat) (c : Nat),
      innerLoopF ac bs.length bs prev c = some (innerLoop ac bs prev c) := by
  intro bs
  induction bs with
  | nil => intro prev c; simp [innerLoopF, innerLoop]
  | cons b bs ih =>
      intro prev c
      cases prev with
      | nil => simp [innerLoopF, innerLoop]
      | cons p0 rest =>
          cases rest with
          | nil => simp [innerLoopF, innerLoop]
          | cons p1 ps =>
              rw [List.length_cons, innerLoopF, innerLoop, ih]
              rfl

theorem outerLoopF_eq (b : List Char) :
    ∀ (rest : List Char) (prev : List Nat) (i : Nat),
      outerLoopF b rest.length rest prev i = some (outerLoop b rest prev i) := by
  intro rest
  induction rest with
  | nil => intro prev i; simp [outerLoopF, outerLoop]
  | cons ac rest ih =>
      intro prev i
      rw [List.length_cons, outerLoopF, innerLoopF_eq, outerLoop]
      exact ih _ _

theorem distanceF_eq (a b : List Char) : distanceF a b = some (distance a b) := by
  unfold distanceF distance
  by_cases ha : a.length = 0
  · simp [ha]
  · by_cases hb : b.length = 0
    · simp [ha, hb]
    · simp only [ha, hb, if_false]
      rw [outerLoopF_eq]
      rfl

theorem slideLoopF_eq (short long : List Char) (n : Nat) :
    ∀ (starts : List Nat) (md : Nat),
      slideLoopF short long n starts.length starts md
        = some (slideLoop short long n starts md) := by
  intro starts
  induction starts with
  | nil => intro md; rfl
  | cons s rest ih =>
      intro md
      rw [List.length_cons, slideLoopF, slideLoop]
      by_cases h1 : distance short ((long.drop s).take n) < md
      · rw [if_pos h1, if_pos h1]
        by_cases h2 : distance short ((long.drop s).take n) = 0
        · rw [if_pos h2, if_pos h2]
        · rw [if_neg h2, if_neg h2, ih]
      · rw [if_neg h1, if_neg h1, ih]

theorem pdistanceF_eq (a b : List Char) :
    pdistanceF a b = some (pdistance a b) := by
  unfold pdistanceF pdistance
  by_cases hab : a.length ≤ b.length
  · simp only [hab, if_true]
    by_cases h0 : a.length = 0
    · simp [h0]
    · simp only [h0, if_false]
      by_cases he : a.length = b.length
      · simp [he, distanceF_eq]
      · simp only [he, if_false]
        have := slideLoopF_eq a b a.length
          (List.range (b.length - a.length + 1)) USIZE_MAX
        rw [List.length_range] at this
        exact this
  · simp only [hab, if_false]
    by_cases h0 : b.length = 0
    · simp [h0]
    · simp only [h0, if_false]
      by_cases he : b.length = a.length
      · simp [he, distanceF_eq]
      · simp only [he, if_false]
        have := slideLoopF_eq b a b.length
          (List.range (a.length - b.length + 1)) USIZE_MAX
        rw [List.length_range] at this
        exact this

theorem lev_self : ∀ a : List Char, lev a a = 0 := by
  intro a
  induction a with
  | nil => simp [lev]
  | cons x xs ih =>
      exact Nat.le_antisymm (le_trans (lev_le_keep x xs xs) (le_of_eq ih))
        (Nat.zero_le _)

theorem lev_eq_zero_iff : ∀ a b : List Char, lev a b = 0 ↔ a = b := by
  intro a
  induction a with
  | nil =>
      intro b
      rw [lev_nil_left]
      constructor
      · intro h; exact (List.length_eq_zero.1 h).symm
      · intro h; subst h; rfl
  | cons x xs ih =>
      intro b
      cases b with
      | nil => rw [lev_nil_right]; simp
      | cons y ys =>
          rw [lev_cons_cons]
          constructor
          · intro h
            by_cases hxy : x = y
            · rw [if_pos hxy] at h
              have h3 : lev xs ys = 0 := by omega
              rw [(ih ys).1 h3, hxy]
            · rw [if_neg hxy] at h
              omega
          · intro h
            injection h with h1 h2
            subst h1; subst h2
            rw [if_pos rfl, lev_self]
            omega

theorem max_len_zero_iff (a b : List Char) :
    max a.length b.length = 0 ↔ (a = [] ∧ b = []) := by
  constructor
  · intro h
    have ha : a.length = 0 := by omega
    have hb : b.length = 0 := by omega
    exact ⟨List.length_eq_zero.1 ha, List.length_eq_zero.1 hb⟩
  · rintro ⟨ha, hb⟩
    subst ha; subst hb; rfl

theorem min_len_zero_iff (a b : List Char) :
    min a.length b.length = 0 ↔ (a = [] ∨ b = []) := by
  constructor
  · intro h
    have : a.length = 0 ∨ b.length = 0 := by omega
    rcases this with h' | h'
    · exact Or.inl (List.length_eq_zero.1 h')
    · exact Or.inr (List.length_eq_zero.1 h')
  · rintro (ha | ha) <;> subst ha <;> simp

theorem nd_bounds (a b : List Char) :
    0 ≤ normalized_distance a b ∧ normalized_distance a b ≤ 1 := by
  unfold normalized_distance
  by_cases h : ((max a.length b.length : Nat) : ℚ) = 0
  · rw [if_pos h]; norm_num
  · rw [if_neg h]
    have hpos : (0 : ℚ) < ((max a.length b.length : Nat) : ℚ) :=
      lt_of_le_of_ne (Nat.cast_nonneg _) (Ne.symm h)
    have hd : (distance a b : ℚ) ≤ ((max a.length b.length : Nat) : ℚ) := by
      exact_mod_cast dist_le_max a b
    exact ⟨div_nonneg (Nat.cast_nonneg _) (le_of_lt hpos),
      (div_le_one hpos).2 hd⟩

theorem npd_bounds (a b : List Char) :
    0 ≤ normalized_pdistance a b ∧ normalized_pdistance a b ≤ 1 := by
  unfold normalized_pdistance
  by_cases h : ((min a.length b.length : Nat) : ℚ) = 0
  · rw [if_pos h]; norm_num
  · rw [if_neg h]
    have hpos : (0 : ℚ) < ((min a.length b.length : Nat) : ℚ) :=
      lt_of_le_of_ne (Nat.cast_nonneg _) (Ne.symm h)
    have hd : (pdistance a b : ℚ) ≤ ((min a.length b.length : Nat) : ℚ) := by
      exact_mod_cast pdist_le_min a b
    exact ⟨div_nonneg (Nat.cast_nonneg _) (le_of_lt hpos),
      (div_le_one hpos).2 hd⟩

/-- C1: for every pair of code-point sequences `a` and `b` (including
empty ones), `distance a b` is the exact Levenshtein distance: it is the
cost of some single-code-point edit script from `a` to `b` and is a lower
bound on the cost of every such script; in particular an empty `a` gives
`b.length` (and symmetrically), and two empty inputs give `0`. -/
theorem distance_exact_levenshtein (a b : List Char) :
    Aligns a b (distance a b) ∧
    (∀ k, Aligns a b k → distance a b ≤ k) ∧
    (a = [] → distance a b = b.length) ∧
    (b = [] → distance a b = a.length) := by
  refine ⟨?_, ?_, ?_, ?_⟩
  · rw [distance_eq_lev]; exact aligns_lev a b
  · intro k hk; rw [distance_eq_lev]; exact lev_le_of_aligns hk
  · intro ha; subst ha; rw [distance_eq_lev, lev_nil_left]
  · intro hb; subst hb; rw [distance_eq_lev, lev_nil_right]

theorem distance_exact_levenshtein_witness :
    Aligns ['a', 'b'] ['b'] (distance ['a', 'b'] ['b']) ∧
    distance ['a', 'b'] ['b'] ≤ 1 ∧
    distance ([] : List Char) ['b'] = 1 ∧
    distance ['a', 'b'] ([] : List Char) = 2 := by
  refine ⟨(distance_exact_levenshtein ['a', 'b'] ['b']).1,
    (distance_exact_levenshtein ['a', 'b'] ['b']).2.1 1
      (Aligns.del 'a' (Aligns.keep 'b' Aligns.nil)), ?_, ?_⟩
  · have := (distance_exact_levenshtein ([] : List Char) ['b']).2.2.1 rfl
    simpa using this
  · have := (distance_exact_levenshtein ['a', 'b'] ([] : List Char)).2.2.2 rfl
    simpa using this

/-- C2: with `short` the argument having fewer code points and `long` the
other, `pdistance` (the embedding of `partial_distance`) returns `0` when
`short` is empty, the full distance when the lengths are equal, and
otherwise the minimum over every start offset `s ≤ len(long) - len(short)`
of `distance short (long[s .. s + len(short)])` (membership in the
candidate set plus the lower-bound property characterise the minimum; the
length side condition records that the `usize::MAX` initialiser dominates
every candidate). -/
theorem pdistance_window_min (a b short long : List Char)
    (h : (short, long) = if a.length ≤ b.length then (a, b) else (b, a)) :
    (short.length = 0 → pdistance a b = 0) ∧
    (short.length = long.length → pdistance a b = distance short long) ∧
    (short.length ≠ 0 → short.length ≠ long.length →
      short.length ≤ USIZE_MAX →
      (∃ s, s ≤ long.length - short.length ∧
        pdistance a b = distance short ((long.drop s).take short.length)) ∧
      (∀ s, s ≤ long.length - short.length →
        pdistance a b ≤ distance short ((long.drop s).take short.length))) := by
  have hcore : pdistance a b = pdistance short long ∧ short.length ≤ long.length := by
    by_cases hab : a.length ≤ b.length
    · rw [if_pos hab] at h
      injection h with h1 h2
      rw [h1, h2]
      exact ⟨rfl, hab⟩
    · rw [if_neg hab] at h
      injection h with h1 h2
      rw [h1, h2]
      exact ⟨pdistance_comm a b, le_of_not_le hab⟩
  rcases hcore with ⟨heq, hle⟩
  rw [heq, pdistance_oriented short long hle]
  refine ⟨?_, ?_, ?_⟩
  · intro h0; rw [if_pos h0]
  · intro he
    by_cases h0 : short.length = 0
    · rw [if_pos h0]
      have hs : short = [] := List.length_eq_zero.1 h0
      have hl : long = [] := List.length_eq_zero.1 (by omega)
      rw [hs, hl]
      decide
    · rw [if_neg h0, if_pos he]
  · intro h0 hne hU
    rw [if_neg h0, if_neg hne]
    constructor
    · rcases foldr_min_mem_or ((List.range (long.length - short.length + 1)).map
        (fun s => distance short ((long.drop s).take short.length))) USIZE_MAX
        with hmem | hmem
      · refine ⟨0, by omega, ?_⟩
        have hm0 : distance short ((long.drop 0).take short.length) ∈
            (List.range (long.length - short.length + 1)).map
              (fun s => distance short ((long.drop s).take short.length)) :=
          List.mem_map.2 ⟨0, List.mem_range.2 (by omega), rfl⟩
        have hle0 := foldr_min_le_mem _ USIZE_MAX _ hm0
        have hw := @dist_window_le short long 0 hle (by omega)
        omega
      · rcases List.mem_map.1 hmem with ⟨s, hs, hval⟩
        exact ⟨s, by have := List.mem_range.1 hs; omega, hval.symm⟩
    · intro s hs
      exact foldr_min_le_mem _ USIZE_MAX _
        (List.mem_map.2 ⟨s, List.mem_range.2 (by omega), rfl⟩)

theorem pdistance_window_min_witness :
    pdistance ['b', 'c'] ['a', 'b', 'c', 'd'] ≤
      distance ['b', 'c'] (((['a', 'b', 'c', 'd'] : List Char).drop 1).take
        (['b', 'c'] : List Char).length) := by
  exact ((pdistance_window_min ['b', 'c'] ['a', 'b', 'c', 'd']
      ['b', 'c'] ['a', 'b', 'c', 'd'] (by decide)).2.2
    (by decide) (by decide) (by norm_num [USIZE_MAX])).2 1 (by decide)

/-- C3: each derived metric equals its §4.3 table formula together with
the stated empty-input edge case (the `f64` results are modelled by exact
rationals, and the saturating subtractions by the integer formula
`max 0 (length bound - distance)`). -/
theorem derived_metrics_match_table (a b : List Char) :
    normalized_distance a b = spec_normalized_distance a b ∧
    (similarity a b : ℤ) = spec_similarity a b ∧
    normalized_similarity a b = spec_normalized_similarity a b ∧
    normalized_pdistance a b = spec_normalized_pdistance a b ∧
    (psimilarity a b : ℤ) = spec_psimilarity a b ∧
    normalized_psimilarity a b = spec_normalized_psimilarity a b := by
  have hmax : ((max a.length b.length : Nat) : ℚ) = 0 ↔ (a = [] ∧ b = []) := by
    rw [Nat.cast_eq_zero]; exact max_len_zero_iff a b
  have hmin : ((min a.length b.length : Nat) : ℚ) = 0 ↔ (a = [] ∨ b = []) := by
    rw [Nat.cast_eq_zero]; exact min_len_zero_iff a b
  refine ⟨?_, ?_, ?_, ?_, ?_, ?_⟩
  · unfold normalized_distance spec_normalized_distance
    by_cases h : a = [] ∧ b = []
    · rw [if_pos h, if_pos (hmax.2 h)]
    · rw [if_neg h, if_neg (fun hc => h (hmax.1 hc))]
  · unfold similarity spec_similarity
    omega
  · unfold normalized_similarity spec_normalized_similarity normalized_distance
    by_cases h : a = [] ∧ b = []
    · rw [if_pos h, if_pos (hmax.2 h)]
    · rw [if_neg h, if_neg (fun hc => h (hmax.1 hc)),
        if_neg (fun hc => h (hmax.1 hc))]
  · unfold normalized_pdistance spec_normalized_pdistance
    by_cases h : a = [] ∨ b = []
    · rw [if_pos h, if_pos (hmin.2 h)]
    · rw [if_neg h, if_neg (fun hc => h (hmin.1 hc))]
  · unfold psimilarity spec_psimilarity
    omega
  · unfold normalized_psimilarity spec_normalized_psimilarity
      normalized_pdistance
    by_cases h : a = [] ∨ b = []
    · rw [if_pos h, if_pos (hmin.2 h)]
    · rw [if_neg h, if_neg (fun hc => h (hmin.1 hc)),
        if_neg (fun hc => h (hmin.1 hc))]

/-- C4: `distance` is symmetric in its two arguments. -/
theorem distance_comm (a b : List Char) : distance a b = distance b a :=
  dist_symm a b

/-- C5: `distance a b = 0` exactly when the two sequences are
code-point-identical, and in particular `distance a a = 0`. -/
theorem distance_eq_zero_iff (a b : List Char) :
    (distance a b = 0 ↔ a = b) ∧ distance a a = 0 := by
  constructor
  · rw [distance_eq_lev]; exact lev_eq_zero_iff a b
  · rw [distance_eq_lev]; exact lev_self a

/-- C6: the distance is at least the absolute difference of the
code-point lengths and at most the larger length. -/
theorem distance_length_bounds (a b : List Char) :
    ((a.length : ℤ) - (b.length : ℤ)).natAbs ≤ distance a b ∧
    distance a b ≤ max a.length b.length := by
  have h1 : a.length - b.length ≤ lev a b := lev_ge_sub a b
  have h2 : b.length - a.length ≤ lev b a := lev_ge_sub b a
  rw [lev_symm b a] at h2
  have h3 := lev_le_max a b
  rw [distance_eq_lev]
  omega

/-- C7 counterexample: with `A = "abba"` and `B = "ababa"` the lengths
differ, the full distance is `1` (one insertion), but every length-4
window of `B` is at distance `2` from `A`, so
`partial_distance(A,B) = 2 > distance(A,B)`. -/
theorem pdistance_gt_distance_cex :
    (['a', 'b', 'b', 'a'] : List Char).length ≠
      (['a', 'b', 'a', 'b', 'a'] : List Char).length ∧
    distance ['a', 'b', 'b', 'a'] ['a', 'b', 'a', 'b', 'a'] = 1 ∧
    pdistance ['a', 'b', 'b', 'a'] ['a', 'b', 'a', 'b', 'a'] = 2 ∧
    ¬ pdistance ['a', 'b', 'b', 'a'] ['a', 'b', 'a', 'b', 'a'] ≤
        distance ['a', 'b', 'b', 'a'] ['a', 'b', 'a', 'b', 'a'] := by
  decide

/-- C7 (amended): when the code-point lengths differ,
`partial_distance(A,B)` is at most `distance(A,B)` plus the difference of
the two lengths. -/
theorem pdistance_le_distance_add_diff (a b : List Char)
    (h : a.length ≠ b.length) :
    pdistance a b ≤ distance a b +
      (max a.length b.length - min a.length b.length) := by
  rcases Nat.lt_or_ge a.length b.length with hlt | hge
  · have h1 := pdist_le_dist_add a b hlt
    omega
  · have hbl : b.length < a.length := by omega
    have h1 := pdist_le_dist_add b a hbl
    rw [pdistance_comm a b, dist_symm a b]
    omega

theorem pdistance_le_distance_add_diff_witness :
    pdistance ['a'] ['b', 'c'] ≤ distance ['a'] ['b', 'c'] +
      (max (['a'] : List Char).length (['b', 'c'] : List Char).length -
        min (['a'] : List Char).length (['b', 'c'] : List Char).length) :=
  pdistance_le_distance_add_diff ['a'] ['b', 'c'] (by decide)

/-- C8: all four normalized metrics lie in the closed interval
`[0, 1]`. -/
theorem normalized_metrics_in_unit_interval (a b : List Char) :
    (0 ≤ normalized_distance a b ∧ normalized_distance a b ≤ 1) ∧
    (0 ≤ normalized_similarity a b ∧ normalized_similarity a b ≤ 1) ∧
    (0 ≤ normalized_pdistance a b ∧ normalized_pdistance a b ≤ 1) ∧
    (0 ≤ normalized_psimilarity a b ∧ normalized_psimilarity a b ≤ 1) := by
  have hnd := nd_bounds a b
  have hnpd := npd_bounds a b
  refine ⟨hnd, ?_, hnpd, ?_⟩
  · unfold normalized_similarity
    unfold normalized_distance at hnd
    by_cases h : ((max a.length b.length : Nat) : ℚ) = 0
    · rw [if_pos h]; norm_num
    · rw [if_neg h]
      rw [if_neg h] at hnd
      constructor <;> linarith [hnd.1, hnd.2]
  · unfold normalized_psimilarity
    unfold normalized_pdistance at hnpd
    by_cases h : ((min a.length b.length : Nat) : ℚ) = 0
    · rw [if_pos h]; norm_num
    · rw [if_neg h]
      rw [if_neg h] at hnpd
      constructor <;> linarith [hnpd.1, hnpd.2]

/-- C9: `partial_distance` never exceeds the shorter length, so the
saturating subtraction in `partial_similarity` never saturates:
`partial_similarity + partial_distance` recovers the shorter length
exactly. -/
theorem pdistance_le_min_length (a b : List Char) :
    pdistance a b ≤ min a.length b.length ∧
    psimilarity a b + pdistance a b = min a.length b.length := by
  have h := pdist_le_min a b
  refine ⟨h, ?_⟩
  unfold psimilarity
  omega

/-- C10: every public function terminates on every pair of finite inputs
with loop bounds fixed by the input lengths: the fuel-indexed variants,
whose loops each consume one unit of fuel per iteration and fail with
`none` on fuel exhaustion, succeed on fuel `a.length` (outer loop),
`b.length` (inner loop) and `m - n + 1` (slide loop) and return exactly
the values of the eight functions. -/
theorem all_functions_total (a b : List Char) :
    distanceF a b = some (distance a b) ∧
    pdistanceF a b = some (pdistance a b) ∧
    normalized_distanceF a b = some (normalized_distance a b) ∧
    similarityF a b = some (similarity a b) ∧
    normalized_similarityF a b = some (normalized_similarity a b) ∧
    normalized_pdistanceF a b = some (normalized_pdistance a b) ∧
    psimilarityF a b = some (psimilarity a b) ∧
    normalized_psimilarityF a b = some (normalized_psimilarity a b) := by
  refine ⟨distanceF_eq a b, pdistanceF_eq a b, ?_, ?_, ?_, ?_, ?_, ?_⟩
  · rw [normalized_distanceF, distanceF_eq]; rfl
  · rw [similarityF, distanceF_eq]; rfl
  · rw [normalized_similarityF, distanceF_eq]; rfl
  · rw [normalized_pdistanceF, pdistanceF_eq]; rfl
  · rw [psimilarityF, pdistanceF_eq]; rfl
  · rw [normalized_psimilarityF, pdistanceF_eq]; rfl

end RString
